import Mathlib

set_option maxRecDepth 4000

namespace LMEval

/-! SHA-256 over lists of bytes (naturals < 256), modelling Python `hashlib.sha256`.
All 32-bit machine arithmetic is `Nat` arithmetic reduced modulo `2 ^ 32`. -/

def w32 (n : Nat) : Nat := n % 4294967296

def rotr (n x : Nat) : Nat := w32 ((x >>> n) ||| (x <<< (32 - n)))

def shaCh (x y z : Nat) : Nat := (x &&& y) ^^^ ((x ^^^ 4294967295) &&& z)

def shaMaj (x y z : Nat) : Nat := (x &&& y) ^^^ (x &&& z) ^^^ (y &&& z)

def bsig0 (x : Nat) : Nat := rotr 2 x ^^^ rotr 13 x ^^^ rotr 22 x

def bsig1 (x : Nat) : Nat := rotr 6 x ^^^ rotr 11 x ^^^ rotr 25 x

def ssig0 (x : Nat) : Nat := rotr 7 x ^^^ rotr 18 x ^^^ (x >>> 3)

def ssig1 (x : Nat) : Nat := rotr 17 x ^^^ rotr 19 x ^^^ (x >>> 10)

def K256 : List Nat :=
  [1116352408, 1899447441, 3049323471, 3921009573, 961987163, 1508970993,
   2453635748, 2870763221, 3624381080, 310598401, 607225278, 1426881987,
   1925078388, 2162078206, 2614888103, 3248222580, 3835390401, 4022224774,
   264347078, 604807628, 770255983, 1249150122, 1555081692, 1996064986,
   2554220882, 2821834349, 2952996808, 3210313671, 3336571891, 3584528711,
   113926993, 338241895, 666307205, 773529912, 1294757372, 1396182291,
   1695183700, 1986661051, 2177026350, 2456956037, 2730485921, 2820302411,
   3259730800, 3345764771, 3516065817, 3600352804, 4094571909, 275423344,
   430227734, 506948616, 659060556, 883997877, 958139571, 1322822218,
   1537002063, 1747873779, 1955562222, 2024104815, 2227730452, 2361852424,
   2428436474, 2756734187, 3204031479, 3329325298]

structure Hash8 where
  (a b c d e f g h : Nat)

def shaRound (s : Hash8) (kw : Nat × Nat) : Hash8 :=
  let t1 := w32 (s.h + bsig1 s.e + shaCh s.e s.f s.g + kw.1 + kw.2)
  let t2 := w32 (bsig0 s.a + shaMaj s.a s.b s.c)
  ⟨w32 (t1 + t2), s.a, s.b, s.c, w32 (s.d + t1), s.e, s.f, s.g⟩

/-- Message-schedule extension: `acc` holds the words seen so far in reverse order. -/
def sched : Nat → List Nat → List Nat
  | 0, acc => acc.reverse
  | n+1, acc =>
      sched n (w32 (ssig1 (acc.getD 1 0) + acc.getD 6 0 + ssig0 (acc.getD 14 0) + acc.getD 15 0) :: acc)

def processBlock (s : Hash8) (block : List Nat) : Hash8 :=
  let ws := sched 48 block.reverse
  let t := (K256.zip ws).foldl shaRound s
  ⟨w32 (s.a + t.a), w32 (s.b + t.b), w32 (s.c + t.c), w32 (s.d + t.d),
   w32 (s.e + t.e), w32 (s.f + t.f), w32 (s.g + t.g), w32 (s.h + t.h)⟩

/-- SHA-256 padding: append `0x80`, zero bytes, then the 64-bit big-endian bit length. -/
def padMsg (m : List Nat) : List Nat :=
  let L := m.length
  let z := (119 - L % 64) % 64
  let bl := 8 * L
  m ++ 128 :: List.replicate z 0 ++
    [(bl >>> 56) % 256, (bl >>> 48) % 256, (bl >>> 40) % 256, (bl >>> 32) % 256,
     (bl >>> 24) % 256, (bl >>> 16) % 256, (bl >>> 8) % 256, bl % 256]

def bytesToWords : List Nat → List Nat
  | b0 :: b1 :: b2 :: b3 :: r => (b0 * 16777216 + b1 * 65536 + b2 * 256 + b3) :: bytesToWords r
  | _ => []

/-- Split a padded byte list into 64-byte blocks, each already converted to sixteen
32-bit words.  The first argument is recursion fuel (the byte-list length suffices). -/
def toBlocks : Nat → List Nat → List (List Nat)
  | 0, _ => []
  | _+1, [] => []
  | f+1, l => bytesToWords (l.take 64) :: toBlocks f (l.drop 64)

def shaInit : Hash8 :=
  ⟨1779033703, 3144134277, 1013904242, 2773480762, 1359893119, 2600822924, 528734635, 1541459225⟩

def wordBytes (w : Nat) : List Nat := [(w >>> 24) % 256, (w >>> 16) % 256, (w >>> 8) % 256, w % 256]

def sha256bytes (m : List Nat) : List Nat :=
  let fin := (toBlocks (padMsg m).length (padMsg m)).foldl processBlock shaInit
  ([fin.a, fin.b, fin.c, fin.d, fin.e, fin.f, fin.g, fin.h].map wordBytes).flatten

def hexChar (n : Nat) : Char := "0123456789abcdef".data.getD n '0'

def byteHex (b : Nat) : List Char := [hexChar (b / 16 % 16), hexChar (b % 16)]

def sha256hex (m : List Nat) : String := String.mk ((sha256bytes m).map byteHex).flatten

/-- SHA-256 test vector: digest of the empty message. -/
theorem sha256hex_empty :
    sha256hex [] = "e3b0c44298fc1c149afbf4c8996fb92427ae41e4649b934ca495991b7852b855" := by
  rfl

/-- SHA-256 test vector: digest of `"abc"`. -/
theorem sha256hex_abc :
    sha256hex ("abc".data.map Char.toNat) =
      "ba7816bf8f01cfea414140de5dae2223b00361a396177a9cb410ff61f20015ad" := by
  rfl


/-! JSON values and serialization, modelling Python `json.dumps` with its default
settings (`ensure_ascii=True`, separators `", "` and `": "`, insertion-ordered
objects).  Floats are outside the model; the caching layer serializes strings,
booleans, integers, lists and dicts. -/

inductive JVal where
  | null : JVal
  | bool : Bool → JVal
  | num : Int → JVal
  | str : String → JVal
  | arr : List JVal → JVal
  | obj : List (String × JVal) → JVal

def hex4 (n : Nat) : List Char :=
  [hexChar (n / 4096 % 16), hexChar (n / 256 % 16), hexChar (n / 16 % 16), hexChar (n % 16)]

/-- Escape a single character the way Python's `json.dumps` (with `ensure_ascii=True`)
does inside a double-quoted JSON string literal. -/
def escChar (c : Char) : List Char :=
  if c = '"' then ['\\', '"']
  else if c = '\\' then ['\\', '\\']
  else if c = '\x08' then ['\\', 'b']
  else if c = '\x0c' then ['\\', 'f']
  else if c = '\n' then ['\\', 'n']
  else if c = '\r' then ['\\', 'r']
  else if c = '\t' then ['\\', 't']
  else if c.toNat < 32 ∨ 127 ≤ c.toNat then
    if c.toNat < 65536 then '\\' :: 'u' :: hex4 c.toNat
    else
      ('\\' :: 'u' :: hex4 (55296 + (c.toNat - 65536) / 1024)) ++
        ('\\' :: 'u' :: hex4 (56320 + (c.toNat - 65536) % 1024))
  else [c]

def escStr (s : List Char) : List Char := s.flatMap escChar

def quoteStr (s : List Char) : List Char := '"' :: escStr s ++ ['"']

mutual

def dumpsV : JVal → List Char
  | .null => "null".data
  | .bool true => "true".data
  | .bool false => "false".data
  | .num n => (toString n).data
  | .str s => quoteStr s.data
  | .arr xs => '[' :: dumpsArr xs ++ [']']
  | .obj kvs => '\x7b' :: dumpsObj kvs ++ ['\x7d']

def dumpsArr : List JVal → List Char
  | [] => []
  | [x] => dumpsV x
  | x :: y :: r => dumpsV x ++ ',' :: ' ' :: dumpsArr (y :: r)

def dumpsObj : List (String × JVal) → List Char
  | [] => []
  | [kv] => quoteStr kv.1.data ++ ':' :: ' ' :: dumpsV kv.2
  | kv :: kv2 :: r => quoteStr kv.1.data ++ ':' :: ' ' :: dumpsV kv.2 ++ ',' :: ' ' :: dumpsObj (kv2 :: r)

end

/-- `hash_args` from `lm_eval/api/model.py`: the SHA-256 hex digest of the JSON
serialization of `[attr] + list(args)`. -/
def serializeArgs (attr : String) (args : List JVal) : String :=
  String.mk (dumpsV (.arr (.str attr :: args)))

def hash_args (attr : String) (args : List JVal) : String :=
  sha256hex ((serializeArgs attr args).data.map Char.toNat)

/-- Matches `hashlib.sha256(json.dumps(["loglikelihood", "a", "b"]).encode("utf-8")).hexdigest()`. -/
theorem hash_args_vector1 :
    hash_args "loglikelihood" [.str "a", .str "b"] =
      "12ecaabf692d19df780197ec7c02a82fa758838f16cfac6dcdcf7efe774a64f2" := by
  rfl

/-- Serialization with escapes, non-BMP characters, ints, null, booleans and nesting
matches Python byte for byte (checked through the digest). -/
theorem hash_args_vector2 :
    hash_args "x" [.str (String.mk ['\x01', '\x7f', 'é', Char.ofNat 128512, '\\', '"']),
        .num 5, .num (-3), .null, .bool true, .bool false, .arr [], .obj []] =
      "50cd2f4b9b251992429b190f552374869343643e9ad99f1f51757763515def48" := by
  rfl

/-- Matches the digest of `["generate_until", "ctx", {"until": ["\n"], "do_sample": true}]`. -/
theorem hash_args_vector3 :
    hash_args "generate_until"
        [.str "ctx", .obj [("until", .arr [.str "\n"]), ("do_sample", .bool true)]] =
      "2c6124cce89506d0219fbecc1f623e324b85c48ef8de1896cbf804b3b1523c94" := by
  rfl


/-! The caching layer from `lm_eval/api/model.py`: `CachingLM.__getattr__.fn`,
`CacheHook`, and the persistent store.  The `SqliteDict` store is modelled as an
association list from digest keys to stored Python values; a stored value has type
`Option ρ` because the store could in principle hold Python `None` (the "unfilled"
sentinel), which the cache-hit path asserts against (`assert ob is not None`).
A failing assertion is modelled as `Except.error ()`. -/

abbrev Store (ρ : Type) : Type := List (String × Option ρ)

def storeGet {ρ} (st : Store ρ) (k : String) : Option (Option ρ) :=
  (st.find? (fun p => p.1 == k)).map (fun p => p.2)

def storeContains {ρ} (st : Store ρ) (k : String) : Bool := (storeGet st k).isSome

def storeSet {ρ} (st : Store ρ) (k : String) (v : Option ρ) : Store ρ := (k, v) :: st

inductive Op where
  | loglikelihood
  | loglikelihood_rolling
  | generate_until
  deriving DecidableEq

def opName : Op → String
  | .loglikelihood => "loglikelihood"
  | .loglikelihood_rolling => "loglikelihood_rolling"
  | .generate_until => "generate_until"

/-- A request as seen by the caching layer: only `req.args` (the ordered argument
tuple of the `Instance`) is ever consulted by `CachingLM` and `CacheHook`. -/
structure Req where
  args : List JVal

/-- Python truthiness of a JSON-representable value. -/
def jTruthy : JVal → Bool
  | .null => false
  | .bool b => b
  | .num n => n != 0
  | .str s => s != ""
  | .arr xs => !xs.isEmpty
  | .obj kvs => !kvs.isEmpty

/-- `req.args[1].get("do_sample", False)` used as a Python condition
(`generate_until` requests carry their generation-kwargs dict at `args[1]`). -/
def doSampleTruthy (args : List JVal) : Bool :=
  match args[1]? with
  | some (JVal.obj kvs) =>
    match kvs.lookup "do_sample" with
    | some v => jTruthy v
    | none => false
  | _ => false

/-- A request takes the miss path (is appended to `remaining_reqs`): either it is a
sampling-flagged `generate_until` request, or its fingerprint is absent from the store. -/
def missPred {ρ} (op : Op) (st : Store ρ) (r : Req) : Bool :=
  (op == .generate_until && doSampleTruthy r.args) || !(storeContains st (hash_args (opName op) r.args))

/-- First loop of `CachingLM.__getattr__.fn`: walk the batch in order, producing the
slot list `res` (`none` = Python `None`, the unfilled sentinel) and the ordered miss
list `remaining_reqs`.  A cache hit whose stored value is the sentinel fails the
`assert ob is not None` (modelled as `Except.error ()`). -/
def phase1 {ρ} (op : Op) (st : Store ρ) : List Req → Except Unit (List (Option ρ) × List Req)
  | [] => .ok ([], [])
  | req :: rest =>
    if op == .generate_until && doSampleTruthy req.args then
      (phase1 op st rest).map (fun sm => (none :: sm.1, req :: sm.2))
    else
      match storeGet st (hash_args (opName op) req.args) with
      | some ob =>
        match ob with
        | none => .error ()
        | some v => (phase1 op st rest).map (fun sm => (some v :: sm.1, sm.2))
      | none => (phase1 op st rest).map (fun sm => (none :: sm.1, req :: sm.2))

/-- Second loop of `fn`: `resptr` walks `res` left to right and each backend result
fills the next unfilled (`None`) slot.  When results run out the remaining slots are
left as they are; surplus results beyond the available slots cannot occur because the
`zip` in `fn` produces at most as many pairs as there are misses. -/
def fillSlots {ρ} : List (Option ρ) → List ρ → List (Option ρ)
  | slots, [] => slots
  | [], _ :: _ => []
  | none :: rest, r :: rs => some r :: fillSlots rest rs
  | some v :: rest, rs => some v :: fillSlots rest rs

/-- The whole of `fn(requests)`: classify, run the backend on the misses, merge, and
write every `(miss, result)` pair back to the store.  Returns the final result list,
the final store, and the miss list that was passed to the backend. -/
def cachingCall {ρ} (op : Op) (bk : List Req → List ρ) (st : Store ρ) (reqs : List Req) :
    Except Unit (List (Option ρ) × Store ρ × List Req) :=
  match phase1 op st reqs with
  | .error e => .error e
  | .ok sm =>
    let misses := sm.2
    let remRes := bk misses
    let pairs := misses.zip remRes
    let res := fillSlots sm.1 (pairs.map (fun p => p.2))
    let st2 := pairs.foldl (fun s p => storeSet s (hash_args (opName op) p.1.args) (some p.2)) st
    .ok (res, st2, misses)

/-- `CacheHook.__init__`: holds the `CachingLM`'s store, or nothing when built from
`None`. -/
structure CacheHook (ρ : Type) where
  dbdict : Option (Store ρ)

def cacheHookOf {ρ} (cachinglm : Option (Store ρ)) : CacheHook ρ :=
  match cachinglm with
  | none => ⟨none⟩
  | some st => ⟨some st⟩

def CacheHook.add_partial {ρ} (hk : CacheHook ρ) (attr : String) (req : List JVal)
    (res : Option ρ) : CacheHook ρ :=
  match hk.dbdict with
  | none => hk
  | some db => ⟨some (storeSet db (hash_args attr req) res)⟩


/-! `TemplateLM._encode_pair` from `lm_eval/api/model.py`.  The tokenizer is an
abstract collaborator, passed in as two functions (`tok_encode` with default settings
and `tok_encode(..., add_special_tokens=False)`); `seq2seq` is the result of the
`AUTO_MODEL_CLASS == transformers.AutoModelForSeq2SeqLM` comparison. -/

/-- Characters stripped by Python's `str.rstrip()` (the Unicode whitespace set). -/
def pyIsSpace (c : Char) : Bool :=
  let n := c.toNat
  (9 ≤ n && n ≤ 13) || n == 32 || (28 ≤ n && n ≤ 31) || n == 133 || n == 160 ||
    n == 5760 || (8192 ≤ n && n ≤ 8202) || n == 8232 || n == 8233 || n == 8239 ||
    n == 8287 || n == 12288

/-- `context.rstrip()` on the character list of a Python string. -/
def rstripList (s : List Char) : List Char := (s.reverse.dropWhile pyIsSpace).reverse

/-- `TemplateLM._encode_pair(context, continuation)`.  `context[-n:]`/`context[:-n]`
for `n > 0` are the last `n` characters and everything before them. -/
def encodePair (tokEnc tokEncNoSpecial : List Char → List Nat) (seq2seq : Bool)
    (context continuation : List Char) : List Nat × List Nat :=
  let nSpaces := context.length - (rstripList context).length
  let ctx2 := if nSpaces > 0 then context.take (context.length - nSpaces) else context
  let cont2 :=
    if nSpaces > 0 then context.drop (context.length - nSpaces) ++ continuation
    else continuation
  if seq2seq then
    (tokEnc ctx2, tokEncNoSpecial cont2)
  else
    let wholeEnc := tokEnc (ctx2 ++ cont2)
    let contextEnc := tokEnc ctx2
    (contextEnc, wholeEnc.drop contextEnc.length)

/-! The rolling-window chunking used by `LM.loglikelihood_rolling`. -/

/-- Python slice `l[a:b]` for non-negative bounds. -/
def pySlice {α} (l : List α) (a b : Nat) : List α := (l.take b).drop a

/-- Modelled from the spec: the per-window generator behind `loglikelihood_rolling`
(`get_rolling_token_windows` lives in `lm_eval/utils.py`, which is not part of this
source tree; only its contract — the docstring of `LM.loglikelihood_rolling`, lines
59-97 of `lm_eval/api/model.py` — is).  This is the loop after the first window:
while tokens remain unpredicted, emit the window whose input is
`tokens[window_end - max_window - 1 : window_end - 1]` and whose predictions are the
next at-most-`max_window` unpredicted tokens.  The first argument after `toks` is
recursion fuel; `toks.length` suffices because every iteration predicts at least one
token. -/
def rollingRest (maxLen : Nat) (toks : List Nat) : Nat → Nat → List (List Nat × List Nat)
  | 0, _ => []
  | f+1, predicted =>
    if predicted < toks.length then
      let wpl := min (toks.length - predicted) maxLen
      let wend := predicted + wpl
      (pySlice toks (wend - (maxLen + 1)) (wend - 1), pySlice toks (wend - wpl) wend) ::
        rollingRest maxLen toks f wend
    else []

/-- Modelled from the spec: the full window list for one document.  The first window
feeds `[boundary_token] + tokens[: first_seq_len - 1]` and predicts
`tokens[: first_seq_len]` with `first_seq_len = min(max_window, len(tokens))`;
the remaining windows follow `rollingRest`. -/
def rollingTokenWindows (boundaryTok : Nat) (toks : List Nat) (maxLen : Nat) :
    List (List Nat × List Nat) :=
  let fsl := min maxLen toks.length
  (boundaryTok :: toks.take (fsl - 1), toks.take fsl) :: rollingRest maxLen toks toks.length fsl

/-- The windowing example in the `loglikelihood_rolling` docstring: ten tokens,
boundary token, max window 4 produce exactly the three documented windows. -/
theorem rollingTokenWindows_docstring_example :
    rollingTokenWindows 99 [0, 1, 2, 3, 4, 5, 6, 7, 8, 9] 4 =
      [([99, 0, 1, 2], [0, 1, 2, 3]), ([3, 4, 5, 6], [4, 5, 6, 7]), ([5, 6, 7, 8], [8, 9])] := by
  rfl


/-! ### Lemmas about the store -/

theorem storeGet_storeSet {ρ} (st : Store ρ) (k k2 : String) (v : Option ρ) :
    storeGet (storeSet st k v) k2 = if k == k2 then some v else storeGet st k2 := by
  simp only [storeGet, storeSet, List.find?]
  by_cases h : k == k2
  · simp [h]
  · simp [h]

theorem storeGet_writes {ρ} (key : Req × ρ → String) :
    ∀ (pairs : List (Req × ρ)) (st : Store ρ) (k : String),
      storeGet (pairs.foldl (fun s p => storeSet s (key p) (some p.2)) st) k =
        match pairs.reverse.find? (fun p => key p == k) with
        | some p => some (some p.2)
        | none => storeGet st k := by
  intro pairs
  induction pairs with
  | nil => intro st k; rfl
  | cons p ps ih =>
    intro st k
    simp only [List.foldl_cons, List.reverse_cons, List.find?_append]
    rw [ih]
    cases hf : ps.reverse.find? (fun q => key q == k) with
    | some q => simp [hf]
    | none =>
      simp only [hf, Option.none_orElse]
      rw [storeGet_storeSet]
      by_cases hk : key p == k
      · simp [List.find?, hk]
      · simp [List.find?, hk]


/-! ### Lemmas about the first loop (`phase1`) -/

theorem phase1_ok_spec {ρ} (op : Op) (st : Store ρ) :
    ∀ (reqs : List Req) (slots : List (Option ρ)) (misses : List Req),
      phase1 op st reqs = .ok (slots, misses) →
      slots = reqs.map (fun r =>
          if missPred op st r then none
          else Option.join (storeGet st (hash_args (opName op) r.args)))
        ∧ misses = reqs.filter (missPred op st)
        ∧ ∀ r ∈ reqs, missPred op st r = false →
            ∃ v, storeGet st (hash_args (opName op) r.args) = some (some v) := by
  intro reqs
  induction reqs with
  | nil =>
    intro slots misses h
    simp only [phase1] at h
    cases h
    simp
  | cons req rest ih =>
    intro slots misses h
    simp only [phase1] at h
    by_cases hs : (op == Op.generate_until && doSampleTruthy req.args) = true
    · rw [if_pos hs] at h
      cases hrec : phase1 op st rest with
      | error e => rw [hrec] at h; exact absurd h (by simp [Except.map])
      | ok sm =>
        rw [hrec] at h
        simp only [Except.map] at h
        cases h
        have hmp : missPred op st req = true := by
          simp only [missPred, Bool.or_eq_true]
          exact Or.inl hs
        obtain ⟨h1, h2, h3⟩ := ih sm.1 sm.2 (by rw [hrec])
        refine ⟨?_, ?_, ?_⟩
        · simp [List.map_cons, hmp, h1]
        · simp [List.filter_cons, hmp, h2]
        · intro r hr hmiss
          rcases List.mem_cons.mp hr with rfl | hr2
          · rw [hmp] at hmiss; cases hmiss
          · exact h3 r hr2 hmiss
    · rw [if_neg hs] at h
      cases hget : storeGet st (hash_args (opName op) req.args) with
      | none =>
        rw [hget] at h
        cases hrec : phase1 op st rest with
        | error e => rw [hrec] at h; exact absurd h (by simp [Except.map])
        | ok sm =>
          rw [hrec] at h
          simp only [Except.map] at h
          cases h
          have hmp : missPred op st req = true := by
            simp only [missPred, Bool.or_eq_true, storeContains, hget]
            right; rfl
          obtain ⟨h1, h2, h3⟩ := ih sm.1 sm.2 (by rw [hrec])
          refine ⟨?_, ?_, ?_⟩
          · simp [List.map_cons, hmp, h1]
          · simp [List.filter_cons, hmp, h2]
          · intro r hr hmiss
            rcases List.mem_cons.mp hr with rfl | hr2
            · rw [hmp] at hmiss; cases hmiss
            · exact h3 r hr2 hmiss
      | some ob =>
        rw [hget] at h
        cases ob with
        | none => exact absurd h (by simp)
        | some v =>
          cases hrec : phase1 op st rest with
          | error e => rw [hrec] at h; exact absurd h (by simp [Except.map])
          | ok sm =>
            rw [hrec] at h
            simp only [Except.map] at h
            cases h
            have hmp : missPred op st req = false := by
              have hns : (op == Op.generate_until && doSampleTruthy req.args) = false := by
                cases hb : (op == Op.generate_until && doSampleTruthy req.args) with
                | false => rfl
                | true => exact absurd hb hs
              simp [missPred, hns, storeContains, hget]
            obtain ⟨h1, h2, h3⟩ := ih sm.1 sm.2 (by rw [hrec])
            refine ⟨?_, ?_, ?_⟩
            · simp [List.map_cons, hmp, hget, h1, Option.join]
            · simp [List.filter_cons, hmp, h2]
            · intro r hr hmiss
              rcases List.mem_cons.mp hr with rfl | hr2
              · exact ⟨v, hget⟩
              · exact h3 r hr2 hmiss

/-! ### Lemmas about the merge loop (`fillSlots`) -/

theorem fillSlots_nil {ρ} (slots : List (Option ρ)) : fillSlots slots [] = slots := by
  cases slots with
  | nil => rfl
  | cons s rest => cases s <;> rfl

theorem fillSlots_getElem? {ρ} :
    ∀ (slots : List (Option ρ)) (fills : List ρ) (i : Nat),
      fills.length ≤ slots.countP (fun s => s.isNone) →
      (fillSlots slots fills)[i]? =
        match slots[i]? with
        | none => none
        | some (some v) => some (some v)
        | some none => some (fills[(slots.take i).countP (fun s => s.isNone)]?) := by
  intro slots
  induction slots with
  | nil =>
    intro fills i hle
    simp only [List.countP_nil, Nat.le_zero, List.length_eq_zero] at hle
    subst hle
    simp [fillSlots]
  | cons s rest ih =>
    intro fills i hle
    cases fills with
    | nil =>
      rw [fillSlots_nil]
      cases hsi : (s :: rest)[i]? with
      | none => simp [hsi]
      | some ob => cases ob <;> simp [hsi]
    | cons f fs =>
      cases s with
      | some v =>
        have hle2 : (f :: fs).length ≤ rest.countP (fun s => s.isNone) := by
          simpa [List.countP_cons] using hle
        simp only [fillSlots]
        cases i with
        | zero => simp
        | succ j =>
          simp only [List.getElem?_cons_succ, List.take_succ_cons, List.countP_cons]
          rw [ih (f :: fs) j hle2]
          cases hr : rest[j]? with
          | none => simp
          | some ob => cases ob <;> simp
      | none =>
        have hle2 : fs.length ≤ rest.countP (fun s => s.isNone) := by
          simp only [List.countP_cons, List.length_cons, Option.isNone_none, if_true] at hle ⊢
          omega
        simp only [fillSlots]
        cases i with
        | zero => simp
        | succ j =>
          simp only [List.getElem?_cons_succ, List.take_succ_cons, List.countP_cons]
          rw [ih fs j hle2]
          cases hr : rest[j]? with
          | none => simp
          | some ob => cases ob <;> simp [List.getElem?_cons_succ]


theorem fillSlots_length {ρ} :
    ∀ (slots : List (Option ρ)) (fills : List ρ),
      fills.length ≤ slots.countP (fun s => s.isNone) →
      (fillSlots slots fills).length = slots.length := by
  intro slots
  induction slots with
  | nil =>
    intro fills hle
    simp only [List.countP_nil, Nat.le_zero, List.length_eq_zero] at hle
    subst hle
    rfl
  | cons s rest ih =>
    intro fills hle
    cases fills with
    | nil => rw [fillSlots_nil]
    | cons f fs =>
      cases s with
      | some v =>
        have hle2 : (f :: fs).length ≤ rest.countP (fun s => s.isNone) := by
          simpa [List.countP_cons] using hle
        simp [fillSlots, ih (f :: fs) hle2]
      | none =>
        have hle2 : fs.length ≤ rest.countP (fun s => s.isNone) := by
          simp only [List.countP_cons, List.length_cons, Option.isNone_none, if_true] at hle ⊢
          omega
        simp [fillSlots, ih fs hle2]

/-! ### The assembled call -/

theorem cachingCall_ok_spec {ρ} (op : Op) (bk : List Req → List ρ) (st : Store ρ)
    (reqs : List Req) (res : List (Option ρ)) (st2 : Store ρ) (misses : List Req)
    (h : cachingCall op bk st reqs = .ok (res, st2, misses)) :
    misses = reqs.filter (missPred op st)
    ∧ res = fillSlots
        (reqs.map fun r =>
          if missPred op st r then none
          else Option.join (storeGet st (hash_args (opName op) r.args)))
        ((misses.zip (bk misses)).map fun p => p.2)
    ∧ st2 = (misses.zip (bk misses)).foldl
        (fun s p => storeSet s (hash_args (opName op) p.1.args) (some p.2)) st
    ∧ ∀ r ∈ reqs, missPred op st r = false →
        ∃ v, storeGet st (hash_args (opName op) r.args) = some (some v) := by
  unfold cachingCall at h
  cases hp : phase1 op st reqs with
  | error e => rw [hp] at h; cases h
  | ok sm =>
    rw [hp] at h
    obtain ⟨h1, h2, h3⟩ := phase1_ok_spec op st reqs sm.1 sm.2 (by rw [hp])
    cases h
    exact ⟨h2, by rw [h1, h2], by rw [h2], h3⟩


theorem zip_map_snd {α β} :
    ∀ (l : List α) (l2 : List β), l.length = l2.length →
      (l.zip l2).map (fun p => p.2) = l2 := by
  intro l
  induction l with
  | nil =>
    intro l2 h
    cases l2 with
    | nil => rfl
    | cons b bs => cases h
  | cons a as ih =>
    intro l2 h
    cases l2 with
    | nil => cases h
    | cons b bs =>
      simp only [List.zip_cons_cons, List.map_cons]
      rw [ih bs (by simpa using h)]

/-- C1: for every batch and every cached operation, a successful `fn` call returns one
result per request; the miss list is the order-preserving sublist of requests failing
the cache (so hits and misses each keep their relative order); every hit position
carries the value stored under its fingerprint, and every miss position carries the
backend result whose rank among the backend outputs equals the number of misses at
earlier positions (the stable merge). -/
theorem claim1_stable_merge {ρ} (op : Op) (bk : List Req → List ρ) (st : Store ρ)
    (reqs : List Req) (res : List (Option ρ)) (st2 : Store ρ) (misses : List Req)
    (hok : cachingCall op bk st reqs = .ok (res, st2, misses))
    (hlen : (bk misses).length = misses.length) :
    res.length = reqs.length
    ∧ misses = reqs.filter (missPred op st)
    ∧ ∀ i, i < reqs.length → ∀ r : Req, reqs[i]? = some r →
        (missPred op st r = false →
          res[i]? = some (Option.join (storeGet st (hash_args (opName op) r.args))))
        ∧ (missPred op st r = true →
          res[i]? = some ((bk misses)[(reqs.take i).countP (missPred op st)]?)) := by
  obtain ⟨hm, hres, _, hhit⟩ := cachingCall_ok_spec op bk st reqs res st2 misses hok
  set f : Req → Option ρ := fun r =>
    if missPred op st r then none
    else Option.join (storeGet st (hash_args (opName op) r.args)) with hf
  have hfc : ∀ r ∈ reqs, (Option.isNone (f r) : Bool) = missPred op st r := by
    intro r hr
    by_cases hmp : missPred op st r = true
    · simp [hf, hmp]
    · obtain ⟨v, hv⟩ := hhit r hr (by simpa using hmp)
      simp only [Bool.not_eq_true] at hmp
      simp [hf, hmp, hv, Option.join]
  have hcount : (reqs.map f).countP (fun s => s.isNone) = misses.length := by
    rw [List.countP_map, hm, ← List.countP_eq_length_filter]
    exact List.countP_congr (fun r hr => by
      rw [← hfc r hr]
      exact Iff.rfl)
  have hfills : ((misses.zip (bk misses)).map (fun p => p.2)) = bk misses :=
    zip_map_snd misses (bk misses) hlen.symm
  have hfl : (bk misses).length ≤ (reqs.map f).countP (fun s => s.isNone) := by
    rw [hcount, hlen]
  refine ⟨?_, hm, ?_⟩
  · rw [hres, hfills, fillSlots_length (reqs.map f) (bk misses) hfl, List.length_map]
  · intro i hi r hr
    have hslot : (reqs.map f)[i]? = some (f r) := by
      rw [List.getElem?_map, hr]
      rfl
    have hcntTake : ((reqs.map f).take i).countP (fun s => s.isNone) =
        (reqs.take i).countP (missPred op st) := by
      rw [← List.map_take, List.countP_map]
      exact List.countP_congr (fun x hx => by
        rw [← hfc x (List.mem_of_mem_take hx)]
        exact Iff.rfl)
    constructor
    · intro hmiss
      rw [hres, hfills, fillSlots_getElem? (reqs.map f) (bk misses) i hfl, hslot]
      simp only [hf, hmiss, if_false]
      obtain ⟨v, hv⟩ := hhit r (List.getElem?_mem hr) hmiss
      rw [hv]
      rfl
    · intro hmiss
      rw [hres, hfills, fillSlots_getElem? (reqs.map f) (bk misses) i hfl, hslot]
      simp only [hf, hmiss, if_true, hcntTake]


/-! Concrete scenario for the C1 witness: a `loglikelihood` batch of three requests
whose middle request is pre-cached (the end-to-end scenario from the spec). -/

def c1st : Store String := [(hash_args "loglikelihood" [.str "a", .str "b"], some "cached")]

def c1reqs : List Req := [⟨[.str "a", .str "x"]⟩, ⟨[.str "a", .str "b"]⟩, ⟨[.str "a", .str "y"]⟩]

def c1bk : List Req → List String := fun rs => (List.range rs.length).map (fun i => "r" ++ toString i)

def c1out : Except Unit (List (Option String) × Store String × List Req) :=
  cachingCall Op.loglikelihood c1bk c1st c1reqs

def c1res : List (Option String) := match c1out with | .ok t => t.1 | .error _ => []

def c1st2 : Store String := match c1out with | .ok t => t.2.1 | .error _ => []

def c1misses : List Req := match c1out with | .ok t => t.2.2 | .error _ => []

theorem claim1_stable_merge_witness :
    c1res.length = 3
    ∧ c1misses = [⟨[.str "a", .str "x"]⟩, ⟨[.str "a", .str "y"]⟩]
    ∧ c1res[1]? = some (some "cached")
    ∧ c1res[0]? = some (some "r0")
    ∧ c1res[2]? = some (some "r1") := by
  have h := claim1_stable_merge Op.loglikelihood c1bk c1st c1reqs c1res c1st2 c1misses rfl rfl
  refine ⟨h.1.trans rfl, h.2.1.trans rfl, ?_, ?_, ?_⟩
  · exact ((h.2.2 1 (by decide) ⟨[.str "a", .str "b"]⟩ rfl).1 rfl).trans rfl
  · exact ((h.2.2 0 (by decide) ⟨[.str "a", .str "x"]⟩ rfl).2 rfl).trans rfl
  · exact ((h.2.2 2 (by decide) ⟨[.str "a", .str "y"]⟩ rfl).2 rfl).trans rfl

/-- C3: in a `generate_until` batch, the miss list is exactly the order-preserving
(duplicate-keeping) sublist of requests failing the cache predicate, and every request
whose `do_sample` flag is truthy fails that predicate — it is sent to the backend no
matter what the store contains. -/
theorem claim3_sampling_always_misses {ρ} (bk : List Req → List ρ) (st : Store ρ)
    (reqs : List Req) (res : List (Option ρ)) (st2 : Store ρ) (misses : List Req)
    (hok : cachingCall Op.generate_until bk st reqs = .ok (res, st2, misses)) :
    misses = reqs.filter (missPred Op.generate_until st)
    ∧ ∀ r ∈ reqs, doSampleTruthy r.args = true →
        missPred Op.generate_until st r = true ∧ r ∈ misses := by
  obtain ⟨hm, -, -, -⟩ := cachingCall_ok_spec Op.generate_until bk st reqs res st2 misses hok
  refine ⟨hm, fun r hr hds => ?_⟩
  have hmp : missPred Op.generate_until st r = true := by
    simp [missPred, hds]
  exact ⟨hmp, by rw [hm]; exact List.mem_filter.mpr ⟨hr, hmp⟩⟩

/-! Concrete scenario for the C3 witness: two identical sampling-flagged requests whose
fingerprint is already in the store; both still reach the backend. -/

def c3req : Req := ⟨[.str "ctx", .obj [("until", .arr [.str "\n"]), ("do_sample", .bool true)]]⟩

def c3st : Store String := [(hash_args "generate_until" c3req.args, some "cached")]

def c3bk : List Req → List String := fun rs => rs.map (fun _ => "fresh")

def c3out : Except Unit (List (Option String) × Store String × List Req) :=
  cachingCall Op.generate_until c3bk c3st [c3req, c3req]

def c3res : List (Option String) := match c3out with | .ok t => t.1 | .error _ => []

def c3st2 : Store String := match c3out with | .ok t => t.2.1 | .error _ => []

def c3misses : List Req := match c3out with | .ok t => t.2.2 | .error _ => []

theorem claim3_sampling_always_misses_witness :
    c3misses = [c3req, c3req]
    ∧ storeContains c3st (hash_args "generate_until" c3req.args) = true
    ∧ doSampleTruthy c3req.args = true := by
  have h := claim3_sampling_always_misses c3bk c3st [c3req, c3req] c3res c3st2 c3misses rfl
  exact ⟨h.1.trans rfl, rfl, rfl⟩

/-- C6: the cache-hit assertion `assert ob is not None` can never fire — the call never
returns the assertion error — provided every value in the store is non-`None`. -/
theorem claim6_assert_unreachable {ρ} (op : Op) (bk : List Req → List ρ) (st : Store ρ)
    (reqs : List Req) (hwf : ∀ p ∈ st, Option.isSome p.2 = true) :
    ∃ out, cachingCall op bk st reqs = .ok out := by
  suffices h : ∃ sm, phase1 op st reqs = .ok sm by
    obtain ⟨sm, hsm⟩ := h
    refine ⟨(fillSlots sm.1 ((sm.2.zip (bk sm.2)).map (fun p => p.2)),
      (sm.2.zip (bk sm.2)).foldl
        (fun s p => storeSet s (hash_args (opName op) p.1.args) (some p.2)) st, sm.2), ?_⟩
    unfold cachingCall
    rw [hsm]
  induction reqs with
  | nil => exact ⟨([], []), rfl⟩
  | cons req rest ih =>
    obtain ⟨sm, hsm⟩ := ih
    by_cases hs : (op == Op.generate_until && doSampleTruthy req.args) = true
    · exact ⟨(none :: sm.1, req :: sm.2), by
        simp only [phase1]; rw [if_pos hs, hsm]; rfl⟩
    · cases hget : storeGet st (hash_args (opName op) req.args) with
      | none => exact ⟨(none :: sm.1, req :: sm.2), by
          simp only [phase1]; rw [if_neg hs, hget, hsm]; rfl⟩
      | some ob =>
        cases ob with
        | some v => exact ⟨(some v :: sm.1, sm.2), by
            simp only [phase1]; rw [if_neg hs, hget, hsm]; rfl⟩
        | none =>
          exfalso
          have hfind := hget
          unfold storeGet at hfind
          cases hf : st.find? (fun p => p.1 == hash_args (opName op) req.args) with
          | none => rw [hf] at hfind; cases hfind
          | some p =>
            rw [hf] at hfind
            have hp : p.2 = none := Option.some.inj hfind
            have := hwf p (List.mem_of_find?_eq_some hf)
            rw [hp] at this
            cases this

/-- Concrete instantiation: a store holding only non-sentinel values makes every call
succeed. -/
theorem claim6_assert_unreachable_witness :
    ∃ out, cachingCall Op.loglikelihood c1bk c1st c1reqs = .ok out :=
  claim6_assert_unreachable Op.loglikelihood c1bk c1st c1reqs (by decide)


/-- C9: a `CacheHook` constructed from `None` is a no-op sink: for every operation
name, payload and result, `add_partial` returns the hook unchanged — no store is
touched and no error is possible — while presenting the same interface as an active
hook. -/
theorem claim9_null_hook_noop (ρ : Type) (attr : String) (req : List JVal) (res : Option ρ) :
    CacheHook.add_partial (cacheHookOf (none : Option (Store ρ))) attr req res
        = cacheHookOf (none : Option (Store ρ))
    ∧ (cacheHookOf (none : Option (Store ρ))).dbdict = none :=
  ⟨rfl, rfl⟩

theorem mem_zip_of_mem_left {α β} :
    ∀ (l : List α) (l2 : List β), l.length ≤ l2.length →
      ∀ a ∈ l, ∃ b, (a, b) ∈ l.zip l2 := by
  intro l
  induction l with
  | nil => intro l2 _ a ha; cases ha
  | cons x xs ih =>
    intro l2 hle a ha
    cases l2 with
    | nil => simp at hle
    | cons y ys =>
      rcases List.mem_cons.mp ha with rfl | ha2
      · exact ⟨y, List.mem_cons_self _ _⟩
      · obtain ⟨b, hb⟩ := ih ys (by simpa using hle) a ha2
        exact ⟨b, List.mem_cons_of_mem _ hb⟩

/-- C2 (amended): rule 2a excludes a sampling-flagged `generate_until` request from the
cache *lookup* — it always goes to the backend — but the write in step 5 is not
conditioned on cacheability: the code writes every `(miss, result)` pair to the store,
including results of sampling-flagged requests, so after the call the fingerprint of
every miss (sampling or not) is present in the store. -/
theorem claim2_sampling_results_are_written {ρ} (bk : List Req → List ρ) (st : Store ρ)
    (reqs : List Req) (res : List (Option ρ)) (st2 : Store ρ) (misses : List Req)
    (hok : cachingCall Op.generate_until bk st reqs = .ok (res, st2, misses))
    (hlen : (bk misses).length = misses.length) :
    (∀ r ∈ reqs, doSampleTruthy r.args = true → r ∈ misses)
    ∧ ∀ r ∈ misses, storeContains st2 (hash_args "generate_until" r.args) = true := by
  obtain ⟨hm, -, hst, -⟩ :=
    cachingCall_ok_spec Op.generate_until bk st reqs res st2 misses hok
  constructor
  · intro r hr hds
    have hmp : missPred Op.generate_until st r = true := by
      simp [missPred, hds]
    rw [hm]
    exact List.mem_filter.mpr ⟨hr, hmp⟩
  · intro r hr
    obtain ⟨b, hb⟩ := mem_zip_of_mem_left misses (bk misses) (by rw [hlen]) r hr
    rw [hst, storeContains]
    rw [storeGet_writes (fun p => hash_args (opName Op.generate_until) p.1.args)]
    cases hf : (misses.zip (bk misses)).reverse.find?
        (fun p => hash_args (opName Op.generate_until) p.1.args
          == hash_args "generate_until" r.args) with
    | some q => simp
    | none =>
      exfalso
      have hnone := List.find?_eq_none.mp hf (r, b) (List.mem_reverse.mpr hb)
      simp at hnone
      exact hnone rfl

/-! Concrete counterexample scenario for C2 as originally stated: a single
sampling-flagged request against an empty store; after the call its fingerprint *is*
in the store, mapped to the backend result. -/

def c2req : Req := ⟨[.str "ctx", .obj [("do_sample", .bool true)]]⟩

def c2bk : List Req → List String := fun rs => rs.map (fun _ => "sampled-output")

theorem claim2_counterexample :
    doSampleTruthy c2req.args = true
    ∧ cachingCall Op.generate_until c2bk ([] : Store String) [c2req]
        = .ok ([some "sampled-output"],
            [(hash_args "generate_until" c2req.args, some "sampled-output")], [c2req])
    ∧ storeGet [(hash_args "generate_until" c2req.args, some "sampled-output")]
        (hash_args "generate_until" c2req.args) = some (some "sampled-output") := by
  refine ⟨rfl, rfl, ?_⟩
  rw [show ([(hash_args "generate_until" c2req.args, some "sampled-output")] : Store String)
      = storeSet [] (hash_args "generate_until" c2req.args) (some "sampled-output") from rfl,
    storeGet_storeSet]
  simp


theorem claim2_sampling_results_are_written_witness :
    storeContains [(hash_args "generate_until" c2req.args, some "sampled-output")]
        (hash_args "generate_until" c2req.args) = true
    ∧ c2req ∈ ([c2req] : List Req) := by
  have h := claim2_sampling_results_are_written c2bk ([] : Store String) [c2req]
    [some "sampled-output"]
    [(hash_args "generate_until" c2req.args, some "sampled-output")]
    [c2req] rfl rfl
  exact ⟨h.2 c2req (List.mem_cons_self _ _), h.1 c2req (List.mem_cons_self _ _) rfl⟩

/-- Helper shared by the hit-path arguments: in a successful call, a position holding a
request that passes the cache predicate receives exactly the value stored under its
fingerprint. -/
theorem cachingCall_getElem_hit {ρ} (op : Op) (bk : List Req → List ρ) (st : Store ρ)
    (reqs : List Req) (res : List (Option ρ)) (st2 : Store ρ) (misses : List Req)
    (hok : cachingCall op bk st reqs = .ok (res, st2, misses))
    (hlen : (bk misses).length = misses.length)
    (i : Nat) (r : Req) (hr : reqs[i]? = some r)
    (hmiss : missPred op st r = false) :
    res[i]? = some (Option.join (storeGet st (hash_args (opName op) r.args))) := by
  obtain ⟨hm, hres, _, hhit⟩ := cachingCall_ok_spec op bk st reqs res st2 misses hok
  set f : Req → Option ρ := fun r =>
    if missPred op st r then none
    else Option.join (storeGet st (hash_args (opName op) r.args)) with hf
  have hfc : ∀ r ∈ reqs, (Option.isNone (f r) : Bool) = missPred op st r := by
    intro r hr
    by_cases hmp : missPred op st r = true
    · simp [hf, hmp]
    · obtain ⟨v, hv⟩ := hhit r hr (by simpa using hmp)
      simp only [Bool.not_eq_true] at hmp
      simp [hf, hmp, hv, Option.join]
  have hcount : (reqs.map f).countP (fun s => s.isNone) = misses.length := by
    rw [List.countP_map, hm, ← List.countP_eq_length_filter]
    exact List.countP_congr (fun r hr => by
      rw [← hfc r hr]
      exact Iff.rfl)
  have hfills : ((misses.zip (bk misses)).map (fun p => p.2)) = bk misses :=
    zip_map_snd misses (bk misses) hlen.symm
  have hfl : (bk misses).length ≤ (reqs.map f).countP (fun s => s.isNone) := by
    rw [hcount, hlen]
  have hslot : (reqs.map f)[i]? = some (f r) := by
    rw [List.getElem?_map, hr]
    rfl
  rw [hres, hfills, fillSlots_getElem? (reqs.map f) (bk misses) i hfl, hslot]
  simp only [hf, hmiss, if_false]
  obtain ⟨v, hv⟩ := hhit r (List.getElem?_mem hr) hmiss
  rw [hv]
  rfl

/-- C10: the write hook and the facade lookup agree on keys.  Writing `res` through an
active `CacheHook.add_partial(op, args, res)` extends the store at
`hash_args(op, args)`, and a later facade call of the same operation containing a
request with exactly those `args` (not sampling-flagged, for `generate_until`) is
served from the cache with value `res`: it fails the miss predicate, never enters the
backend miss list, and its result slot holds `res`. -/
theorem claim10_hook_write_facade_read {ρ} (op : Op) (st0 : Store ρ) (args : List JVal)
    (v : ρ) (bk : List Req → List ρ) (reqs : List Req) (i : Nat) (r : Req)
    (res : List (Option ρ)) (st2 : Store ρ) (misses : List Req)
    (hr : reqs[i]? = some r) (hargs : r.args = args)
    (hsamp : doSampleTruthy args = false)
    (hok : cachingCall op bk (storeSet st0 (hash_args (opName op) args) (some v)) reqs
        = .ok (res, st2, misses))
    (hlen : (bk misses).length = misses.length) :
    CacheHook.add_partial (cacheHookOf (some st0)) (opName op) args (some v)
        = ⟨some (storeSet st0 (hash_args (opName op) args) (some v))⟩
    ∧ missPred op (storeSet st0 (hash_args (opName op) args) (some v)) r = false
    ∧ res[i]? = some (some v)
    ∧ r ∉ misses := by
  set st1 : Store ρ := storeSet st0 (hash_args (opName op) args) (some v) with hst1
  have hget : storeGet st1 (hash_args (opName op) args) = some (some v) := by
    rw [hst1, storeGet_storeSet]
    simp
  have hmp : missPred op st1 r = false := by
    simp [missPred, hargs, hsamp, storeContains, hget]
  obtain ⟨hm, -, -, -⟩ := cachingCall_ok_spec op bk st1 reqs res st2 misses hok
  refine ⟨rfl, hmp, ?_, ?_⟩
  · rw [cachingCall_getElem_hit op bk st1 reqs res st2 misses hok hlen i r hr hmp, hargs, hget]
    rfl
  · rw [hm]
    intro hmem
    have := (List.mem_filter.mp hmem).2
    rw [hmp] at this
    cases this

/-! Concrete scenario for the C10 witness: record a result through the hook, then issue
a batch containing a request with the same payload. -/

def c10args : List JVal := [.str "q", .obj [("until", .arr [.str "stop"])]]

def c10st1 : Store String := storeSet [] (hash_args "generate_until" c10args) (some "resp")

def c10bk : List Req → List String := fun rs => rs.map (fun _ => "backend")

def c10out : Except Unit (List (Option String) × Store String × List Req) :=
  cachingCall Op.generate_until c10bk c10st1 [⟨c10args⟩]

def c10res : List (Option String) := match c10out with | .ok t => t.1 | .error _ => []

def c10st2 : Store String := match c10out with | .ok t => t.2.1 | .error _ => []

def c10misses : List Req := match c10out with | .ok t => t.2.2 | .error _ => []

theorem claim10_hook_write_facade_read_witness :
    CacheHook.add_partial (cacheHookOf (some ([] : Store String))) "generate_until"
        c10args (some "resp") = ⟨some c10st1⟩
    ∧ c10res[0]? = some (some "resp")
    ∧ (⟨c10args⟩ : Req) ∉ c10misses := by
  have h := claim10_hook_write_facade_read Op.generate_until ([] : Store String) c10args
    "resp" c10bk [⟨c10args⟩] 0 ⟨c10args⟩ c10res c10st2 c10misses rfl rfl rfl rfl rfl
  exact ⟨h.1, h.2.2.1, h.2.2.2⟩


theorem fillSlots_cons_some {ρ} (v : ρ) (rest : List (Option ρ)) (rs : List ρ) :
    fillSlots (some v :: rest) rs = some v :: fillSlots rest rs := by
  cases rs with
  | nil => rw [fillSlots_nil, fillSlots_nil]
  | cons r rrs => rfl

theorem fillSlots_map_filter {α ρ} (p : α → Bool) (f0 : α → Option ρ) (g : α → ρ) :
    ∀ l : List α,
      (∀ r ∈ l, p r = true → f0 r = none) →
      (∀ r ∈ l, p r = false → ∃ v, f0 r = some v) →
      fillSlots (l.map f0) ((l.filter p).map g) =
        l.map (fun r => if p r then some (g r) else f0 r) := by
  intro l
  induction l with
  | nil => intro _ _; rfl
  | cons x xs ih =>
    intro h1 h2
    have ih2 := ih (fun r hr => h1 r (List.mem_cons_of_mem _ hr))
      (fun r hr => h2 r (List.mem_cons_of_mem _ hr))
    by_cases hp : p x = true
    · have hx0 : f0 x = none := h1 x (List.mem_cons_self _ _) hp
      simp only [List.map_cons, List.filter_cons, hp, if_true, hx0]
      rw [show fillSlots (none :: xs.map f0) (g x :: (xs.filter p).map g)
          = some (g x) :: fillSlots (xs.map f0) ((xs.filter p).map g) from rfl, ih2]
    · have hpf : p x = false := by simpa using hp
      obtain ⟨v, hv⟩ := h2 x (List.mem_cons_self _ _) hpf
      simp only [List.map_cons, List.filter_cons, hpf, if_false, Bool.false_eq_true, hv]
      rw [fillSlots_cons_some, ih2]

theorem zip_self_map {α β} (g : α → β) :
    ∀ l : List α, l.zip (l.map g) = l.map (fun a => (a, g a)) := by
  intro l
  induction l with
  | nil => rfl
  | cons x xs ih => simp only [List.map_cons, List.zip_cons_cons, ih]

/-- `phase1` succeeds whenever every request is either a miss or a hit on a
non-sentinel stored value. -/
theorem phase1_total {ρ} (op : Op) (st : Store ρ) :
    ∀ reqs : List Req,
      (∀ r ∈ reqs, missPred op st r = true ∨
        ∃ v, storeGet st (hash_args (opName op) r.args) = some (some v)) →
      ∃ sm, phase1 op st reqs = .ok sm := by
  intro reqs
  induction reqs with
  | nil => exact fun _ => ⟨([], []), rfl⟩
  | cons req rest ih =>
    intro h
    obtain ⟨sm, hsm⟩ := ih (fun r hr => h r (List.mem_cons_of_mem _ hr))
    by_cases hs : (op == Op.generate_until && doSampleTruthy req.args) = true
    · exact ⟨(none :: sm.1, req :: sm.2), by
        simp only [phase1]; rw [if_pos hs, hsm]; rfl⟩
    · cases hget : storeGet st (hash_args (opName op) req.args) with
      | none => exact ⟨(none :: sm.1, req :: sm.2), by
          simp only [phase1]; rw [if_neg hs, hget, hsm]; rfl⟩
      | some ob =>
        cases ob with
        | some v => exact ⟨(some v :: sm.1, sm.2), by
            simp only [phase1]; rw [if_neg hs, hget, hsm]; rfl⟩
        | none =>
          exfalso
          have hmp : missPred op st req = false := by
            have hns : (op == Op.generate_until && doSampleTruthy req.args) = false := by
              cases hb : (op == Op.generate_until && doSampleTruthy req.args) with
              | false => rfl
              | true => exact absurd hb hs
            simp [missPred, hns, storeContains, hget]
          rcases h req (List.mem_cons_self _ _) with hbad | ⟨v, hv⟩
          · rw [hmp] at hbad; cases hbad
          · rw [hget] at hv; cases hv


/-- C4 (amended): warm-store idempotence holds for batches with no sampling-flagged
request, a backend that computes each request's result as a function of that request
alone, and fingerprints that are collision-free on the batch: replaying the batch
against the store left by the first call returns the first call's results exactly,
passes the empty miss list to the backend (zero backend work), and leaves the store
untouched. -/
theorem claim4_warm_replay_idempotent {ρ} (op : Op) (g : Req → ρ) (st0 : Store ρ)
    (reqs : List Req) (res1 : List (Option ρ)) (st1 : Store ρ) (misses1 : List Req)
    (hok1 : cachingCall op (fun rs => rs.map g) st0 reqs = .ok (res1, st1, misses1))
    (hnos : ∀ r ∈ reqs, doSampleTruthy r.args = false)
    (hinj : ∀ r ∈ reqs, ∀ r2 ∈ reqs,
        hash_args (opName op) r.args = hash_args (opName op) r2.args → r = r2) :
    cachingCall op (fun rs => rs.map g) st1 reqs = .ok (res1, st1, []) := by
  obtain ⟨hm, hres, hst, hhit0⟩ :=
    cachingCall_ok_spec op (fun rs => rs.map g) st0 reqs res1 st1 misses1 hok1
  have hmsub : ∀ r ∈ misses1, r ∈ reqs := by
    intro r hr
    rw [hm] at hr
    exact List.mem_of_mem_filter hr
  have hmiss_of_mem : ∀ r ∈ misses1, missPred op st0 r = true := by
    intro r hr
    rw [hm] at hr
    exact (List.mem_filter.mp hr).2
  -- the store after the first call, key by key
  have hstget : ∀ k, storeGet st1 k =
      match (misses1.map (fun r => (r, g r))).reverse.find?
          (fun q => hash_args (opName op) q.1.args == k) with
      | some q => some (some q.2)
      | none => storeGet st0 k := by
    intro k
    rw [hst, show (misses1.zip ((fun rs => rs.map g) misses1)) = misses1.map (fun r => (r, g r))
      from zip_self_map g misses1]
    exact storeGet_writes (fun p => hash_args (opName op) p.1.args)
      (misses1.map (fun r => (r, g r))) st0 k
  -- a first-call miss reads back its own backend result
  have hA1 : ∀ r ∈ reqs, missPred op st0 r = true →
      storeGet st1 (hash_args (opName op) r.args) = some (some (g r)) := by
    intro r hr hp
    have hrm : r ∈ misses1 := by
      rw [hm]
      exact List.mem_filter.mpr ⟨hr, hp⟩
    rw [hstget]
    cases hfind : (misses1.map (fun r => (r, g r))).reverse.find?
        (fun q => hash_args (opName op) q.1.args == hash_args (opName op) r.args) with
    | none =>
      exfalso
      have := List.find?_eq_none.mp hfind (r, g r)
        (List.mem_reverse.mpr (List.mem_map_of_mem _ hrm))
      simp at this
    | some q =>
      have hqmem : q ∈ misses1.map (fun r => (r, g r)) :=
        List.mem_reverse.mp (List.mem_of_find?_eq_some hfind)
      obtain ⟨x, hx, hq⟩ := List.mem_map.mp hqmem
      have hpred := List.find?_some hfind
      have hkeq : hash_args (opName op) q.1.args = hash_args (opName op) r.args :=
        eq_of_beq hpred
      have hx1 : q.1 = x := by rw [← hq]
      have : x = r := hinj x (hmsub x hx) r hr (by rw [← hx1, hkeq])
      subst this
      rw [← hq]
  -- a first-call hit's key is untouched by the writes
  have hA2 : ∀ r ∈ reqs, missPred op st0 r = false →
      storeGet st1 (hash_args (opName op) r.args) = storeGet st0 (hash_args (opName op) r.args) := by
    intro r hr hp
    rw [hstget]
    cases hfind : (misses1.map (fun r => (r, g r))).reverse.find?
        (fun q => hash_args (opName op) q.1.args == hash_args (opName op) r.args) with
    | none => rfl
    | some q =>
      exfalso
      have hqmem : q ∈ misses1.map (fun r => (r, g r)) :=
        List.mem_reverse.mp (List.mem_of_find?_eq_some hfind)
      obtain ⟨x, hx, hq⟩ := List.mem_map.mp hqmem
      have hpred := List.find?_some hfind
      have hkeq : hash_args (opName op) q.1.args = hash_args (opName op) r.args :=
        eq_of_beq hpred
      have hx1 : q.1 = x := by rw [← hq]
      -- x was a miss, so its key was absent from st0; but r's (equal) key was present
      have hxmiss : missPred op st0 x = true := hmiss_of_mem x hx
      have hxsamp : doSampleTruthy x.args = false := hnos x (hmsub x hx)
      have hxnc : storeContains st0 (hash_args (opName op) x.args) = false := by
        cases hc : storeContains st0 (hash_args (opName op) x.args) with
        | false => rfl
        | true => simp [missPred, hxsamp, hc] at hxmiss
      have hrc : storeContains st0 (hash_args (opName op) r.args) = true := by
        cases hc : storeContains st0 (hash_args (opName op) r.args) with
        | true => rfl
        | false => simp [missPred, hc] at hp
      rw [← hx1, hkeq, hrc] at hxnc
      cases hxnc
  -- every request hits on the second call
  have hB : ∀ r ∈ reqs, missPred op st1 r = false := by
    intro r hr
    by_cases hp : missPred op st0 r = true
    · simp [missPred, hnos r hr, storeContains, hA1 r hr hp]
    · have hpf : missPred op st0 r = false := by simpa using hp
      obtain ⟨v, hv⟩ := hhit0 r hr hpf
      simp [missPred, hnos r hr, storeContains, hA2 r hr hpf, hv]
  have hTot : ∀ r ∈ reqs, missPred op st1 r = true ∨
      ∃ v, storeGet st1 (hash_args (opName op) r.args) = some (some v) := by
    intro r hr
    right
    by_cases hp : missPred op st0 r = true
    · exact ⟨g r, hA1 r hr hp⟩
    · have hpf : missPred op st0 r = false := by simpa using hp
      obtain ⟨v, hv⟩ := hhit0 r hr hpf
      exact ⟨v, by rw [hA2 r hr hpf, hv]⟩
  obtain ⟨sm, hsm⟩ := phase1_total op st1 reqs hTot
  obtain ⟨hsm1, hsm2, -⟩ := phase1_ok_spec op st1 reqs sm.1 sm.2 (by rw [hsm])
  have hm2 : sm.2 = [] := by
    rw [hsm2]
    exact List.filter_eq_nil_iff.mpr (fun r hr => by rw [hB r hr]; simp)
  have hfills0 : ((misses1.zip ((fun rs => rs.map g) misses1)).map (fun p => p.2))
      = misses1.map g :=
    zip_map_snd misses1 (misses1.map g) (by rw [List.length_map])
  have hres1 : res1 = reqs.map (fun r =>
      if missPred op st0 r then some (g r)
      else Option.join (storeGet st0 (hash_args (opName op) r.args))) := by
    rw [hres, hfills0, hm]
    rw [fillSlots_map_filter (missPred op st0)
      (fun r => if missPred op st0 r then none
        else Option.join (storeGet st0 (hash_args (opName op) r.args))) g reqs
      (fun r _ hp => by simp [hp])
      (fun r hr hp => by
        obtain ⟨v, hv⟩ := hhit0 r hr hp
        exact ⟨v, by simp [hp, hv, Option.join]⟩)]
    exact List.map_congr_left (fun r _ => by by_cases hp : missPred op st0 r <;> simp [hp])
  have hslots2 : sm.1 = res1 := by
    rw [hsm1, hres1]
    apply List.map_congr_left
    intro r hr
    by_cases hp : missPred op st0 r = true
    · simp [hB r hr, hp, hA1 r hr hp, Option.join]
    · have hpf : missPred op st0 r = false := by simpa using hp
      simp [hB r hr, hpf, hA2 r hr hpf]
  unfold cachingCall
  rw [hsm]
  show Except.ok (fillSlots sm.1 ((sm.2.zip ((fun rs => rs.map g) sm.2)).map (fun p => p.2)),
    (sm.2.zip ((fun rs => rs.map g) sm.2)).foldl
      (fun s p => storeSet s (hash_args (opName op) p.1.args) (some p.2)) st1, sm.2)
    = Except.ok (res1, st1, [])
  rw [hm2]
  show Except.ok (fillSlots sm.1 [], st1, []) = Except.ok (res1, st1, [])
  rw [fillSlots_nil, hslots2]


/-! Concrete counterexample scenario for C4 as originally stated: a sampling-flagged
`generate_until` batch is replayed against the store its first call produced, and the
second call still passes the (non-empty) batch to the backend. -/

def c4req : Req := ⟨[.str "p", .obj [("do_sample", .bool true)]]⟩

def c4bk : List Req → List String := fun rs => rs.map (fun _ => "out")

def c4st1 : Store String := [(hash_args "generate_until" c4req.args, some "out")]

theorem claim4_counterexample :
    cachingCall Op.generate_until c4bk ([] : Store String) [c4req]
      = .ok ([some "out"], c4st1, [c4req])
    ∧ cachingCall Op.generate_until c4bk c4st1 [c4req]
      = .ok ([some "out"],
          (hash_args "generate_until" c4req.args, some "out") :: c4st1, [c4req])
    ∧ ([c4req] : List Req) ≠ [] := by
  refine ⟨rfl, rfl, ?_⟩
  intro h
  cases h

/-! Concrete scenario for the C4 witness: a two-request `loglikelihood` batch with
distinct fingerprints, replayed against the warm store. -/

def c4g : Req → String := fun _ => "val"

def c4wreqs : List Req := [⟨[.str "m1"]⟩, ⟨[.str "m2"]⟩]

def c4wout : Except Unit (List (Option String) × Store String × List Req) :=
  cachingCall Op.loglikelihood (fun rs => rs.map c4g) [] c4wreqs

def c4wres1 : List (Option String) := match c4wout with | .ok t => t.1 | .error _ => []

def c4wst1 : Store String := match c4wout with | .ok t => t.2.1 | .error _ => []

def c4wmisses1 : List Req := match c4wout with | .ok t => t.2.2 | .error _ => []

theorem claim4_warm_replay_idempotent_witness :
    cachingCall Op.loglikelihood (fun rs => rs.map c4g) c4wst1 c4wreqs
      = .ok (c4wres1, c4wst1, []) := by
  apply claim4_warm_replay_idempotent Op.loglikelihood c4g ([] : Store String) c4wreqs
    c4wres1 c4wst1 c4wmisses1 rfl (by decide)
  intro r hr r2 hr2
  fin_cases hr <;> fin_cases hr2
  · intro _; rfl
  · intro h; exact absurd h (by decide)
  · intro h; exact absurd h (by decide)
  · intro _; rfl


/-! ### Lemmas about `rstripList` and `_encode_pair` -/

theorem rstrip_append_drop (s : List Char) :
    rstripList s ++ (s.reverse.takeWhile pyIsSpace).reverse = s := by
  rw [rstripList, ← List.reverse_append, List.takeWhile_append_dropWhile, List.reverse_reverse]

theorem rstrip_length_le (s : List Char) : (rstripList s).length ≤ s.length := by
  conv_rhs => rw [← rstrip_append_drop s]
  rw [List.length_append]
  omega

theorem take_rstrip_length (s : List Char) : s.take (rstripList s).length = rstripList s := by
  nth_rewrite 2 [← rstrip_append_drop s]
  exact List.take_left _ _

theorem drop_rstrip_length (s : List Char) :
    s.drop (rstripList s).length = (s.reverse.takeWhile pyIsSpace).reverse := by
  nth_rewrite 2 [← rstrip_append_drop s]
  exact List.drop_left _ _

theorem drop_rstrip_all_space (s : List Char) :
    ∀ c ∈ s.drop (rstripList s).length, pyIsSpace c = true := by
  intro c hc
  rw [drop_rstrip_length] at hc
  exact List.mem_takeWhile_imp (List.mem_reverse.mp hc)

theorem rstrip_no_trailing_space (s : List Char) :
    ∀ c, (rstripList s).getLast? = some c → pyIsSpace c = false := by
  intro c hc
  rw [rstripList, List.getLast?_reverse] at hc
  have h := List.head?_dropWhile_not pyIsSpace s.reverse
  rw [hc] at h
  exact h

/-- C7: `_encode_pair` first moves the entire trailing whitespace run of `context` onto
the front of `continuation` — the post-split context is `context.rstrip()`, which has
no trailing whitespace, the moved characters are all whitespace, and the combined
string is unchanged — and then encodes: jointly with a suffix split for decoder-only
families, independently (continuation without special tokens) for encoder-decoder
families. -/
theorem claim7_encode_pair_split (tokEnc tokEncNoSpecial : List Char → List Nat)
    (seq2seq : Bool) (context continuation : List Char) :
    (encodePair tokEnc tokEncNoSpecial seq2seq context continuation =
      if seq2seq then
        (tokEnc (rstripList context),
         tokEncNoSpecial (context.drop (rstripList context).length ++ continuation))
      else
        (tokEnc (rstripList context),
         (tokEnc (rstripList context ++ (context.drop (rstripList context).length ++ continuation))).drop
           (tokEnc (rstripList context)).length))
    ∧ rstripList context ++ (context.drop (rstripList context).length ++ continuation)
        = context ++ continuation
    ∧ (∀ c ∈ context.drop (rstripList context).length, pyIsSpace c = true)
    ∧ (∀ c, (rstripList context).getLast? = some c → pyIsSpace c = false) := by
  refine ⟨?_, ?_, drop_rstrip_all_space context, rstrip_no_trailing_space context⟩
  · unfold encodePair
    dsimp only
    have hle := rstrip_length_le context
    by_cases hn : context.length - (rstripList context).length > 0
    · have harith : context.length - (context.length - (rstripList context).length)
          = (rstripList context).length := by omega
      rw [if_pos hn, if_pos hn, harith, take_rstrip_length]
    · have h0 : context.length - (rstripList context).length = 0 := by omega
      have hlen : (rstripList context).length = context.length := by omega
      have hctx : rstripList context = context := by
        rw [← take_rstrip_length context, hlen, List.take_length]
      rw [if_neg hn, if_neg hn, hctx, List.drop_length, List.nil_append]
  · rw [← List.append_assoc, drop_rstrip_length, rstrip_append_drop]


theorem claim7_encode_pair_split_witness :
    encodePair (fun s => [s.length]) (fun s => [s.length, s.length]) false
        "ab \t".data "cd".data = ([2], [])
    ∧ pyIsSpace ' ' = true
    ∧ pyIsSpace 'b' = false := by
  have h := claim7_encode_pair_split (fun s => [s.length]) (fun s => [s.length, s.length])
    false "ab \t".data "cd".data
  exact ⟨h.1.trans rfl, h.2.2.1 ' ' (by decide), h.2.2.2 'b' rfl⟩

/-! ### Lemmas about the rolling windows -/

theorem rollingRest_join (maxLen : Nat) (toks : List Nat) (h1 : 1 ≤ maxLen) :
    ∀ (f predicted : Nat), toks.length - predicted ≤ f →
      ((rollingRest maxLen toks f predicted).map (fun w => w.2)).flatten
        = toks.drop predicted := by
  intro f
  induction f with
  | zero =>
    intro predicted hf
    simp only [rollingRest, List.map_nil, List.flatten_nil]
    rw [List.drop_eq_nil_of_le (by omega)]
  | succ f ih =>
    intro predicted hf
    simp only [rollingRest]
    by_cases hp : predicted < toks.length
    · rw [if_pos hp]
      have hwpl1 : 1 ≤ min (toks.length - predicted) maxLen := by
        simp only [le_min_iff]
        omega
      simp only [List.map_cons, List.flatten_cons]
      rw [ih (predicted + min (toks.length - predicted) maxLen) (by omega)]
      show (toks.take (predicted + min (toks.length - predicted) maxLen)).drop
          (predicted + min (toks.length - predicted) maxLen
            - min (toks.length - predicted) maxLen) ++ _ = _
      have harith : predicted + min (toks.length - predicted) maxLen
          - min (toks.length - predicted) maxLen = predicted := by omega
      rw [harith, ← List.take_drop, ← List.drop_drop, List.take_append_drop]
    · rw [if_neg hp]
      simp only [List.map_nil, List.flatten_nil]
      rw [List.drop_eq_nil_of_le (by omega)]


theorem rollingRest_input_len (maxLen : Nat) (toks : List Nat) (h1 : 1 ≤ maxLen) :
    ∀ (f predicted : Nat), maxLen ≤ predicted →
      ∀ w ∈ rollingRest maxLen toks f predicted, w.1.length = maxLen := by
  intro f
  induction f with
  | zero => intro predicted _ w hw; cases hw
  | succ f ih =>
    intro predicted hpre w hw
    simp only [rollingRest] at hw
    by_cases hp : predicted < toks.length
    · rw [if_pos hp] at hw
      rcases List.mem_cons.mp hw with rfl | hw2
      · have hw2le : min (toks.length - predicted) maxLen ≤ toks.length - predicted :=
          min_le_left _ _
        have hw3 : 1 ≤ min (toks.length - predicted) maxLen := by
          simp only [le_min_iff]
          omega
        show ((toks.take (predicted + min (toks.length - predicted) maxLen - 1)).drop
          (predicted + min (toks.length - predicted) maxLen - (maxLen + 1))).length = maxLen
        rw [List.length_drop, List.length_take]
        omega
      · exact ih (predicted + min (toks.length - predicted) maxLen) (by omega) w hw2
    · rw [if_neg hp] at hw
      cases hw

/-- C8 (modelled from the spec): the rolling-window scorer with boundary token and a
maximum window size `max_window ≤ length` produces prediction segments that
concatenate back to the token sequence — every token is predicted by exactly one
window, in order, with no overlap and no gap — while *every* window's input (the final
window included, even when it predicts fewer tokens) has size exactly `max_window`;
for the docstring's ten-token example with `max_window = 4` there are exactly 3
windows predicting `[0,1,2,3]`, `[4,5,6,7]`, `[8,9]`. -/
theorem claim8_rolling_window_partition (b : Nat) (toks : List Nat) (maxLen : Nat)
    (h1 : 1 ≤ maxLen) (h2 : maxLen ≤ toks.length) :
    ((rollingTokenWindows b toks maxLen).map (fun w => w.2)).flatten = toks
    ∧ (∀ w ∈ rollingTokenWindows b toks maxLen, w.1.length = maxLen)
    ∧ (rollingTokenWindows 99 [0,1,2,3,4,5,6,7,8,9] 4).length = 3
    ∧ (rollingTokenWindows 99 [0,1,2,3,4,5,6,7,8,9] 4).map (fun w => w.2)
        = [[0,1,2,3],[4,5,6,7],[8,9]] := by
  refine ⟨?_, ?_, rfl, rfl⟩
  · unfold rollingTokenWindows
    dsimp only
    simp only [List.map_cons, List.flatten_cons]
    rw [rollingRest_join maxLen toks h1 toks.length (min maxLen toks.length) (by omega),
      List.take_append_drop]
  · unfold rollingTokenWindows
    dsimp only
    intro w hw
    rcases List.mem_cons.mp hw with rfl | hw2
    · show (b :: toks.take (min maxLen toks.length - 1)).length = maxLen
      rw [List.length_cons, List.length_take]
      omega
    · exact rollingRest_input_len maxLen toks h1 toks.length (min maxLen toks.length)
        (by omega) w hw2

theorem claim8_rolling_window_partition_witness :
    ((rollingTokenWindows 99 [0,1,2,3,4,5,6,7,8,9] 4).map (fun w => w.2)).flatten
        = [0,1,2,3,4,5,6,7,8,9]
    ∧ (rollingTokenWindows 99 [0,1,2,3,4,5,6,7,8,9] 4).length = 3
    ∧ (([5,6,7,8],[8,9]) : List Nat × List Nat).1.length = 4 := by
  have h := claim8_rolling_window_partition 99 [0,1,2,3,4,5,6,7,8,9] 4 (by decide) (by decide)
  exact ⟨h.1, h.2.2.1, h.2.1 ([5,6,7,8],[8,9]) (by decide)⟩


/-! ### A decoder for the serialized form, used to prove that the serialization is
injective (order- and element-sensitive) on string payloads. -/

def hv (c : Char) : Option Nat :=
  if '0' ≤ c ∧ c ≤ '9' then some (c.toNat - 48)
  else if 'a' ≤ c ∧ c ≤ 'f' then some (c.toNat - 87)
  else none

def parse4 (a b c d : Char) : Option Nat :=
  match hv a, hv b, hv c, hv d with
  | some x, some y, some z, some w => some (4096 * x + 256 * y + 16 * z + w)
  | _, _, _, _ => none

def mapConsPair (c : Char) (o : Option (List Char × List Char)) :
    Option (List Char × List Char) :=
  o.map (fun p => (c :: p.1, p.2))

/-- Decode one escaped JSON string body up to (and consuming) its closing quote,
returning the decoded characters and the remaining input.  The first argument is
recursion fuel; one unit is spent per decoded character. -/
def parseStrBody : Nat → List Char → Option (List Char × List Char)
  | 0, _ => none
  | _+1, [] => none
  | f+1, c :: t =>
    if c = '"' then some ([], t)
    else if c = '\\' then
      match t with
      | '"' :: r => mapConsPair '"' (parseStrBody f r)
      | '\\' :: r => mapConsPair '\\' (parseStrBody f r)
      | 'b' :: r => mapConsPair '\x08' (parseStrBody f r)
      | 'f' :: r => mapConsPair '\x0c' (parseStrBody f r)
      | 'n' :: r => mapConsPair '\n' (parseStrBody f r)
      | 'r' :: r => mapConsPair '\r' (parseStrBody f r)
      | 't' :: r => mapConsPair '\t' (parseStrBody f r)
      | 'u' :: a :: b :: cc :: d :: r =>
        (match parse4 a b cc d with
        | none => none
        | some n =>
          if n < 55296 ∨ 57344 ≤ n then mapConsPair (Char.ofNat n) (parseStrBody f r)
          else if n < 56320 then
            match r with
            | '\\' :: 'u' :: a2 :: b2 :: c2 :: d2 :: r2 =>
              (match parse4 a2 b2 c2 d2 with
              | none => none
              | some m =>
                if 56320 ≤ m ∧ m < 57344 then
                  mapConsPair (Char.ofNat (65536 + (n - 55296) * 1024 + (m - 56320)))
                    (parseStrBody f r2)
                else none)
            | _ => none
          else none)
      | _ => none
    else mapConsPair c (parseStrBody f t)

theorem hv_hexChar (m : Nat) (hm : m < 16) : hv (hexChar m) = some m := by
  interval_cases m <;> rfl

theorem parse4_hex4 (n : Nat) (hn : n < 65536) :
    parse4 (hexChar (n / 4096 % 16)) (hexChar (n / 256 % 16))
      (hexChar (n / 16 % 16)) (hexChar (n % 16)) = some n := by
  have h1 := hv_hexChar (n / 4096 % 16) (Nat.mod_lt _ (by norm_num))
  have h2 := hv_hexChar (n / 256 % 16) (Nat.mod_lt _ (by norm_num))
  have h3 := hv_hexChar (n / 16 % 16) (Nat.mod_lt _ (by norm_num))
  have h4 := hv_hexChar (n % 16) (Nat.mod_lt _ (by norm_num))
  unfold parse4
  rw [h1, h2, h3, h4]
  show some (4096 * (n / 4096 % 16) + 256 * (n / 256 % 16) + 16 * (n / 16 % 16) + n % 16)
    = some n
  congr 1
  have hb1 : n / 256 = n / 16 / 16 := by
    rw [Nat.div_div_eq_div_mul]
  have hb2 : n / 4096 = n / 16 / 16 / 16 := by
    rw [Nat.div_div_eq_div_mul, Nat.div_div_eq_div_mul]
  rw [hb1, hb2]
  omega


theorem psb_plain (f : Nat) (c : Char) (t : List Char) (h1 : ¬c = '"') (h2 : ¬c = '\\') :
    parseStrBody (f+1) (c :: t) = mapConsPair c (parseStrBody f t) := by
  simp only [parseStrBody]
  rw [if_neg h1, if_neg h2]

theorem psbU_bmp (f : Nat) (a b c d : Char) (r : List Char) (n : Nat)
    (hp : parse4 a b c d = some n) (hn : n < 55296 ∨ 57344 ≤ n) :
    parseStrBody (f+1) ('\\' :: 'u' :: a :: b :: c :: d :: r)
      = mapConsPair (Char.ofNat n) (parseStrBody f r) := by
  simp only [parseStrBody, hp]
  rw [if_neg (show ¬('\\' = '"') by decide), if_pos trivial]
  rw [if_pos hn]

theorem psbU_pair (f : Nat) (a b c d a2 b2 c2 d2 : Char) (r : List Char) (n m : Nat)
    (hp : parse4 a b c d = some n) (hn1 : ¬(n < 55296 ∨ 57344 ≤ n)) (hn2 : n < 56320)
    (hq : parse4 a2 b2 c2 d2 = some m) (hm : 56320 ≤ m ∧ m < 57344) :
    parseStrBody (f+1) ('\\' :: 'u' :: a :: b :: c :: d :: '\\' :: 'u' :: a2 :: b2 :: c2 :: d2 :: r)
      = mapConsPair (Char.ofNat (65536 + (n - 55296) * 1024 + (m - 56320)))
        (parseStrBody f r) := by
  simp only [parseStrBody, hp]
  rw [if_neg (show ¬('\\' = '"') by decide), if_pos trivial]
  rw [if_neg hn1, if_pos hn2]
  simp only [hq]
  rw [if_pos hm]

theorem escChar_parse (c : Char) (f : Nat) (rest : List Char) :
    parseStrBody (f+1) (escChar c ++ rest) = mapConsPair c (parseStrBody f rest) := by
  by_cases h1 : c = '"'
  · subst h1; rfl
  by_cases h2 : c = '\\'
  · subst h2; rfl
  by_cases h3 : c = '\x08'
  · subst h3; rfl
  by_cases h4 : c = '\x0c'
  · subst h4; rfl
  by_cases h5 : c = '\n'
  · subst h5; rfl
  by_cases h6 : c = '\r'
  · subst h6; rfl
  by_cases h7 : c = '\t'
  · subst h7; rfl
  by_cases h8 : c.toNat < 32 ∨ 127 ≤ c.toNat
  · have hesc : escChar c =
        if c.toNat < 65536 then '\\' :: 'u' :: hex4 c.toNat
        else ('\\' :: 'u' :: hex4 (55296 + (c.toNat - 65536) / 1024)) ++
          ('\\' :: 'u' :: hex4 (56320 + (c.toNat - 65536) % 1024)) := by
      unfold escChar
      rw [if_neg h1, if_neg h2, if_neg h3, if_neg h4, if_neg h5, if_neg h6, if_neg h7,
        if_pos h8]
    by_cases h9 : c.toNat < 65536
    · rw [hesc, if_pos h9]
      simp only [hex4, List.cons_append, List.nil_append]
      have hval : c.toNat < 55296 ∨ 57344 ≤ c.toNat := by
        rcases c.valid with h | h
        · exact Or.inl h
        · exact Or.inr h.1
      rw [psbU_bmp f _ _ _ _ rest c.toNat (parse4_hex4 c.toNat h9) hval, Char.ofNat_toNat]
    · have hcb : c.toNat < 1114112 := by
        have hvt : c.toNat = c.val.toNat := rfl
        rcases c.valid with h | h
        · omega
        · exact h.2
      have hhi : 55296 + (c.toNat - 65536) / 1024 < 65536 := by omega
      have hlo : 56320 + (c.toNat - 65536) % 1024 < 65536 := by
        have := Nat.mod_lt (c.toNat - 65536) (y := 1024) (by norm_num)
        omega
      rw [hesc, if_neg h9]
      simp only [hex4, List.cons_append, List.nil_append, List.append_assoc]
      rw [psbU_pair f _ _ _ _ _ _ _ _ rest _ _
        (parse4_hex4 _ hhi) (by omega) (by omega) (parse4_hex4 _ hlo)
        (by
          constructor
          · omega
          · have := Nat.mod_lt (c.toNat - 65536) (y := 1024) (by norm_num)
            omega)]
      have hvalue : 65536 + (55296 + (c.toNat - 65536) / 1024 - 55296) * 1024 +
          (56320 + (c.toNat - 65536) % 1024 - 56320) = c.toNat := by
        have := Nat.div_add_mod (c.toNat - 65536) 1024
        omega
      rw [hvalue, Char.ofNat_toNat]
  · have hesc : escChar c = [c] := by
      unfold escChar
      rw [if_neg h1, if_neg h2, if_neg h3, if_neg h4, if_neg h5, if_neg h6, if_neg h7,
        if_neg h8]
    rw [hesc]
    exact psb_plain f c rest h1 h2


theorem psb_quote (f : Nat) (t : List Char) :
    parseStrBody (f+1) ('"' :: t) = some ([], t) := by
  simp only [parseStrBody]
  rw [if_pos trivial]

theorem escStr_parse : ∀ (s : List Char) (f : Nat) (rest : List Char), s.length < f →
    parseStrBody f (escStr s ++ '"' :: rest) = some (s, rest) := by
  intro s
  induction s with
  | nil =>
    intro f rest hf
    cases f with
    | zero => omega
    | succ f2 =>
      show parseStrBody (f2+1) (escStr [] ++ '"' :: rest) = _
      rw [show escStr [] ++ '"' :: rest = '"' :: rest from rfl, psb_quote]
  | cons c cs ih =>
    intro f rest hf
    cases f with
    | zero => omega
    | succ f2 =>
      have hsplit : escStr (c :: cs) ++ '"' :: rest
          = escChar c ++ (escStr cs ++ '"' :: rest) := by
        simp [escStr, List.append_assoc]
      rw [hsplit, escChar_parse c f2 (escStr cs ++ '"' :: rest),
        ih f2 rest (by simp at hf; omega)]
      rfl

theorem escChar_length_pos (c : Char) : 1 ≤ (escChar c).length := by
  unfold escChar
  split_ifs <;> simp [hex4]

theorem escStr_length_ge (s : List Char) : s.length ≤ (escStr s).length := by
  induction s with
  | nil => simp [escStr]
  | cons c cs ih =>
    have h := escChar_length_pos c
    simp only [escStr, List.flatMap_cons, List.length_append, List.length_cons] at ih ⊢
    omega

/-- The serialized form of a nonempty list of strings, after the opening bracket:
quoted items separated by `", "`, closed by `]`. -/
def szTail : List (List Char) → List Char
  | [] => [']']
  | [x] => quoteStr x ++ [']']
  | x :: y :: r => quoteStr x ++ ',' :: ' ' :: szTail (y :: r)

theorem quoteStr_length_ge (x : List Char) : 2 ≤ (quoteStr x).length := by
  simp [quoteStr]

theorem szTail_length : ∀ ls : List (List Char), ls.length < (szTail ls).length := by
  intro ls
  induction ls with
  | nil => simp [szTail]
  | cons x xs ih =>
    cases xs with
    | nil =>
      have := quoteStr_length_ge x
      simp only [szTail, List.length_append, List.length_cons, List.length_nil]
      omega
    | cons y r =>
      have := quoteStr_length_ge x
      simp only [szTail, List.length_append, List.length_cons] at ih ⊢
      omega

theorem dumpsArr_szTail : ∀ (xs : List String) (x : String),
    dumpsArr ((x :: xs).map JVal.str) ++ [']'] = szTail ((x :: xs).map String.data) := by
  intro xs
  induction xs with
  | nil =>
    intro x
    rfl
  | cons y r ih =>
    intro x
    show dumpsArr (JVal.str x :: JVal.str y :: r.map JVal.str) ++ [']'] = _
    rw [show dumpsArr (JVal.str x :: JVal.str y :: r.map JVal.str)
        = dumpsV (JVal.str x) ++ ',' :: ' ' :: dumpsArr (JVal.str y :: r.map JVal.str)
      from rfl]
    show (quoteStr x.data ++ ',' :: ' ' :: dumpsArr ((y :: r).map JVal.str)) ++ [']'] = _
    rw [List.append_assoc]
    show _ = quoteStr x.data ++ ',' :: ' ' :: szTail ((y :: r).map String.data)
    rw [← ih y]
    rfl

def parseSeq : Nat → List Char → Option (List (List Char))
  | 0, _ => none
  | f+1, input =>
    match input with
    | '"' :: t =>
      match parseStrBody (t.length + 1) t with
      | some (s, r) =>
        match r with
        | [']'] => some [s]
        | ',' :: ' ' :: r2 => (parseSeq f r2).map (fun l => s :: l)
        | _ => none
      | none => none
    | _ => none

theorem parseSeq_szTail : ∀ (xs : List (List Char)) (x : List Char) (f : Nat),
    xs.length < f → parseSeq f (szTail (x :: xs)) = some (x :: xs) := by
  intro xs
  induction xs with
  | nil =>
    intro x f hf
    cases f with
    | zero => omega
    | succ f2 =>
      show parseSeq (f2+1) (quoteStr x ++ [']']) = some [x]
      rw [show quoteStr x ++ [']'] = '"' :: (escStr x ++ '"' :: [']']) by
        simp [quoteStr, List.append_assoc]]
      simp only [parseSeq]
      rw [escStr_parse x ((escStr x ++ '"' :: [']']).length + 1) [']'] (by
        have := escStr_length_ge x
        simp only [List.length_append, List.length_cons]
        omega)]
      rfl
  | cons y r ih =>
    intro x f hf
    cases f with
    | zero => omega
    | succ f2 =>
      show parseSeq (f2+1) (quoteStr x ++ ',' :: ' ' :: szTail (y :: r)) = _
      rw [show quoteStr x ++ ',' :: ' ' :: szTail (y :: r)
          = '"' :: (escStr x ++ '"' :: ',' :: ' ' :: szTail (y :: r)) by
        simp [quoteStr, List.append_assoc]]
      simp only [parseSeq]
      rw [escStr_parse x ((escStr x ++ '"' :: ',' :: ' ' :: szTail (y :: r)).length + 1)
        (',' :: ' ' :: szTail (y :: r)) (by
          have := escStr_length_ge x
          simp only [List.length_append, List.length_cons]
          omega)]
      rw [show ((some (x, ',' :: ' ' :: szTail (y :: r))
          : Option (List Char × List Char))) = some (x, ',' :: ' ' :: szTail (y :: r))
        from rfl]
      simp only []
      rw [ih y f2 (by simp at hf; omega)]
      rfl

def parseFull : List Char → Option (List (List Char))
  | '[' :: t => parseSeq t.length t
  | _ => none

theorem parseFull_serializeArgs (attr : String) (xs : List String) :
    parseFull (serializeArgs attr (xs.map JVal.str)).data
      = some (attr.data :: xs.map String.data) := by
  have hdata : (serializeArgs attr (xs.map JVal.str)).data
      = '[' :: szTail ((attr :: xs).map String.data) := by
    show dumpsV (.arr (.str attr :: xs.map JVal.str)) = _
    rw [show (JVal.str attr :: xs.map JVal.str) = (attr :: xs).map JVal.str from rfl]
    rw [show dumpsV (.arr ((attr :: xs).map JVal.str))
        = '[' :: dumpsArr ((attr :: xs).map JVal.str) ++ [']'] from rfl]
    rw [show ('[' :: dumpsArr ((attr :: xs).map JVal.str)) ++ [']']
        = '[' :: (dumpsArr ((attr :: xs).map JVal.str) ++ [']']) from rfl]
    rw [dumpsArr_szTail]
  rw [hdata]
  show parseSeq (szTail ((attr :: xs).map String.data)).length
    (szTail ((attr :: xs).map String.data)) = _
  rw [show ((attr :: xs).map String.data) = attr.data :: xs.map String.data from rfl]
  apply parseSeq_szTail
  have := szTail_length (attr.data :: xs.map String.data)
  simp only [List.length_cons] at this ⊢
  omega

theorem serializeArgs_str_inj (attr : String) (xs ys : List String)
    (h : serializeArgs attr (xs.map JVal.str) = serializeArgs attr (ys.map JVal.str)) :
    xs = ys := by
  have h1 := parseFull_serializeArgs attr xs
  rw [h, parseFull_serializeArgs attr ys] at h1
  injection h1 with h2
  injection h2 with h3 h4
  have h5 : (ys.map String.data).map String.mk = (xs.map String.data).map String.mk := by
    rw [h4]
  have hmk : ∀ l : List String, (l.map String.data).map String.mk = l := by
    intro l
    induction l with
    | nil => rfl
    | cons a as iha => simp only [List.map_cons, iha]
  rw [hmk, hmk] at h5
  exact h5.symm


theorem sha256bytes_length (m : List Nat) : (sha256bytes m).length = 32 := by
  unfold sha256bytes
  simp [wordBytes]

theorem byteHex_flatten_length :
    ∀ bs : List Nat, ((bs.map byteHex).flatten).length = 2 * bs.length := by
  intro bs
  induction bs with
  | nil => rfl
  | cons b rest ih =>
    simp only [List.map_cons, List.flatten_cons, List.length_append, ih, byteHex,
      List.length_cons, List.length_nil, List.length_cons]
    omega

theorem sha256hex_length (m : List Nat) : (sha256hex m).length = 64 := by
  show ((sha256bytes m).map byteHex).flatten.length = 64
  rw [byteHex_flatten_length, sha256bytes_length]

theorem hexChar_mem (n : Nat) : hexChar n ∈ "0123456789abcdef".data := by
  rcases Nat.lt_or_ge n 16 with h | h
  · interval_cases n <;> decide
  · have h16 : ("0123456789abcdef".data).length ≤ n := by
      rw [show ("0123456789abcdef".data).length = 16 from rfl]
      exact h
    unfold hexChar
    rw [List.getD_eq_default _ _ h16]
    decide

theorem sha256hex_chars (m : List Nat) : ∀ c ∈ (sha256hex m).data, c ∈ "0123456789abcdef".data := by
  intro c hc
  have hc2 : c ∈ ((sha256bytes m).map byteHex).flatten := hc
  rw [List.mem_flatten] at hc2
  obtain ⟨l, hl, hcl⟩ := hc2
  rw [List.mem_map] at hl
  obtain ⟨b, -, rfl⟩ := hl
  simp only [byteHex, List.mem_cons, List.not_mem_nil, or_false] at hcl
  rcases hcl with rfl | rfl
  · exact hexChar_mem _
  · exact hexChar_mem _

/-- C5: the fingerprint is a pure function of the operation name and ordered payload
(it is defined as a function of exactly those two arguments, so repeated
applications agree definitionally); its digest is always a 64-character string over the lowercase
hexadecimal alphabet (256 bits); the serialization is order- and element-sensitive —
distinct string payloads (differing in any element or in element order) serialize
differently — and the two payloads of the spec's example produce different digests. -/
theorem claim5_fingerprint_function (attr : String) (args : List JVal)
    (xs ys : List String) :
    (hash_args attr args).length = 64
    ∧ (∀ c ∈ (hash_args attr args).data, c ∈ "0123456789abcdef".data)
    ∧ (xs ≠ ys →
        serializeArgs attr (xs.map JVal.str) ≠ serializeArgs attr (ys.map JVal.str))
    ∧ hash_args "logLikelihood" [.str "a", .str "b"]
        ≠ hash_args "logLikelihood" [.str "a", .str "c"] := by
  refine ⟨sha256hex_length _, sha256hex_chars _, ?_, by decide⟩
  intro hne heq
  exact hne (serializeArgs_str_inj attr xs ys heq)

theorem claim5_fingerprint_function_witness :
    (hash_args "loglikelihood" [.str "a", .str "b"]).length = 64
    ∧ serializeArgs "loglikelihood" (["a", "b"].map JVal.str)
        ≠ serializeArgs "loglikelihood" (["b", "a"].map JVal.str)
    ∧ hash_args "logLikelihood" [.str "a", .str "b"]
        ≠ hash_args "logLikelihood" [.str "a", .str "c"] := by
  have h := claim5_fingerprint_function "loglikelihood" [.str "a", .str "b"]
    ["a", "b"] ["b", "a"]
  exact ⟨h.1, h.2.2.1 (by decide), h.2.2.2⟩

end LMEval
